import Mathlib

/-!
# Verification of `advanced-vector/vector.h`

A shallow embedding of the `Vector<T>` dynamic array built on `RawMemory<T>`
(src/advanced-vector/vector.h).  Raw storage is modelled as a list of cells,
one per allocated slot: `none` is an uninitialized (or destroyed) slot and
`some x` a live element holding the value `x`.  The capacity of the block is
the length of the cell list; a `Vector` is a block together with its logical
`size_`.  Placement `new` at slot `i` is `List.set i (some x)`, `destroy_at`
is `List.set i none`, and reading a slot is `readC`.  The C++ code chooses at
compile time between moving and copying elements
(`is_nothrow_move_constructible_v<T> || !is_copy_constructible_v<T>`); on the
value level both transfer the cell contents, so the embedding has one
transfer function `copyCells` for the never-failing paths and a fallible
`dupSeq` (duplication that may fail on a given call, modelling a throwing
copy constructor) for the strong-guarantee analysis.
-/

namespace AdvVec

variable {T : Type}

/-- Read slot `i` of a raw block: `none` when the slot is uninitialized or
out of range (reading out of range is UB in the C++; it never happens under
the preconditions below). -/
def readC : List (Option T) → Nat → Option T
  | [], _ => none
  | c :: _, 0 => c
  | _ :: cs, n + 1 => readC cs n

/-- Element `i` of the abstract (specification-level) list of values. -/
def elemAt : List T → Nat → Option T
  | [], _ => none
  | a :: _, 0 => some a
  | _ :: as, n + 1 => elemAt as n

/-- `Vector<T>`: one owned raw block (`data_`, cells) and the logical element
count `size_`. -/
structure Vec (T : Type) where
  data : List (Option T)
  size : Nat
deriving Repr, DecidableEq

/-- `Vector::Capacity()` : the capacity of the owned `RawMemory` block. -/
def Vec.Capacity (v : Vec T) : Nat := v.data.length

/-- `Vector::Size()`. -/
def Vec.Size (v : Vec T) : Nat := v.size

/-- `Vector()` : default constructed, size 0, capacity 0 (null block). -/
def emptyVec : Vec T := { data := [], size := 0 }

/-- `Vector(size_t size)` : `data_(size)` then
`uninitialized_value_construct_n(data_.GetAddress(), size)`; `d` is the
value produced by `T()`. -/
def mkVec (n : Nat) (d : T) : Vec T := { data := List.replicate n (some d), size := n }

/-- `std::uninitialized_move_n / uninitialized_copy_n` on the value level:
transfer `n` cells from `src` starting at `si` into `dst` starting at `di`,
in forward order. -/
def copyCells (src : List (Option T)) : Nat → List (Option T) → Nat → Nat → List (Option T)
  | _, dst, _, 0 => dst
  | si, dst, di, n + 1 => copyCells src (si + 1) (dst.set di (readC src si)) (di + 1) n

/-- `std::move_backward(l + pos, l + (pos + n), l + (pos + n + 1))` : shift
the cells `[pos, pos+n)` one slot up, writing the highest index first (so
every read still sees the original value, as in the C++ algorithm). -/
def shiftUpFrom (l : List (Option T)) (pos : Nat) : Nat → List (Option T)
  | 0 => l
  | n + 1 => shiftUpFrom (l.set (pos + n + 1) (readC l (pos + n))) pos n

/-- `std::move(l + (pos + 1), l + (pos + 1 + n), l + pos)` : shift `n` cells
one slot down by element-wise assignment, lowest index first. -/
def shiftDown : List (Option T) → Nat → Nat → List (Option T)
  | l, _, 0 => l
  | l, pos, n + 1 => shiftDown (l.set pos (readC l (pos + 1))) (pos + 1) n

/-- `std::destroy_at` over the range `[i, i+n)`. -/
def destroyRange : List (Option T) → Nat → Nat → List (Option T)
  | l, _, 0 => l
  | l, i, n + 1 => destroyRange (l.set i none) (i + 1) n

/-- `std::uninitialized_value_construct_n(l + i, n)` with default value `d`. -/
def fillRange (d : T) : List (Option T) → Nat → Nat → List (Option T)
  | l, _, 0 => l
  | l, i, n + 1 => fillRange d (l.set i (some d)) (i + 1) n

/-- `std::uninitialized_copy_n` with a copy constructor that may throw:
`dup cnt x` is the result of the `cnt`-th duplication (`none` = throws).
Returns `none` when a duplication fails; the partially built destination is
then discarded, exactly as stack unwinding discards the not-yet-committed
block in the C++. -/
def dupSeq (dup : Nat → T → Option T) (src : List (Option T)) :
    Nat → List (Option T) → Nat → Nat → Nat → Option (List (Option T))
  | _, dst, _, _, 0 => some dst
  | si, dst, di, cnt, n + 1 =>
    match readC src si with
    | none => none
    | some x =>
      match dup cnt x with
      | none => none
      | some y => dupSeq dup src (si + 1) (dst.set di (some y)) (di + 1) (cnt + 1) n

/-! ## Basic cell lemmas -/

theorem readC_nil (i : Nat) : readC ([] : List (Option T)) i = none := by
  cases i <;> rfl

theorem readC_of_length_le (l : List (Option T)) (i : Nat) (h : l.length ≤ i) :
    readC l i = none := by
  induction l generalizing i with
  | nil => exact readC_nil i
  | cons c cs ih =>
    cases i with
    | zero => simp at h
    | succ n => exact ih n (by simpa using h)

theorem readC_set (l : List (Option T)) (i j : Nat) (x : Option T) :
    readC (l.set i x) j = if i = j ∧ j < l.length then x else readC l j := by
  induction l generalizing i j with
  | nil => simp [readC_nil]
  | cons c cs ih =>
    cases i with
    | zero =>
      cases j with
      | zero => simp [List.set, readC]
      | succ m => simp [List.set, readC]
    | succ n =>
      cases j with
      | zero => simp [List.set, readC]
      | succ m =>
        simp only [List.set, readC, ih n m, List.length_cons]
        by_cases h : n = m ∧ m < cs.length
        · rw [if_pos h, if_pos ⟨by omega, by omega⟩]
        · rw [if_neg h, if_neg (by omega)]

theorem readC_replicate (n i : Nat) :
    readC (List.replicate n (none : Option T)) i = none := by
  induction n generalizing i with
  | zero => simp [List.replicate, readC_nil]
  | succ m ih =>
    cases i with
    | zero => rfl
    | succ k => exact ih k

theorem elemAt_isSome (l : List T) (i : Nat) (h : i < l.length) :
    (elemAt l i).isSome := by
  induction l generalizing i with
  | nil => simp at h
  | cons a as ih =>
    cases i with
    | zero => rfl
    | succ n => exact ih n (by simpa using h)

theorem elemAt_of_length_le (l : List T) (i : Nat) (h : l.length ≤ i) :
    elemAt l i = none := by
  induction l generalizing i with
  | nil => cases i <;> rfl
  | cons a as ih =>
    cases i with
    | zero => simp at h
    | succ n => exact ih n (by simpa using h)

/-! ## Characterizations of the block-level loops -/

theorem length_copyCells (src : List (Option T)) (si : Nat) (dst : List (Option T))
    (di n : Nat) : (copyCells src si dst di n).length = dst.length := by
  induction n generalizing si dst di with
  | zero => rfl
  | succ m ih => simp [copyCells, ih]

theorem readC_copyCells (src : List (Option T)) (si : Nat) (dst : List (Option T))
    (di n j : Nat) :
    readC (copyCells src si dst di n) j =
      if di ≤ j ∧ j < di + n ∧ j < dst.length then readC src (si + (j - di))
      else readC dst j := by
  induction n generalizing si dst di with
  | zero =>
    simp only [copyCells]
    rw [if_neg (by omega)]
  | succ m ih =>
    simp only [copyCells]
    rw [ih]
    simp only [List.length_set, readC_set]
    by_cases hj : j = di
    · subst hj
      by_cases hlen : j < dst.length
      · rw [if_neg (by omega), if_pos ⟨rfl, hlen⟩, if_pos (by omega)]
        simp
      · rw [if_neg (by omega), if_neg (by omega), if_neg (by omega)]
    · by_cases hin : di + 1 ≤ j ∧ j < di + 1 + m ∧ j < dst.length
      · rw [if_pos hin, if_pos (by omega)]
        have : si + 1 + (j - (di + 1)) = si + (j - di) := by omega
        rw [this]
      · rw [if_neg hin, if_neg (by omega), if_neg (by omega)]

theorem length_shiftUpFrom (l : List (Option T)) (pos n : Nat) :
    (shiftUpFrom l pos n).length = l.length := by
  induction n generalizing l with
  | zero => rfl
  | succ m ih => simp [shiftUpFrom, ih]

theorem readC_shiftUpFrom (l : List (Option T)) (pos n j : Nat) :
    readC (shiftUpFrom l pos n) j =
      if pos + 1 ≤ j ∧ j ≤ pos + n ∧ j < l.length then readC l (j - 1)
      else readC l j := by
  induction n generalizing l with
  | zero =>
    simp only [shiftUpFrom]
    rw [if_neg (by omega)]
  | succ m ih =>
    simp only [shiftUpFrom]
    rw [ih]
    simp only [List.length_set, readC_set]
    by_cases hj : j = pos + m + 1
    · subst hj
      by_cases hlen : pos + m + 1 < l.length
      · rw [if_neg (by omega), if_pos ⟨rfl, hlen⟩, if_pos (by omega)]
        congr 1
      · rw [if_neg (by omega), if_neg (by omega), if_neg (by omega)]
    · by_cases hin : pos + 1 ≤ j ∧ j ≤ pos + m ∧ j < l.length
      · rw [if_pos hin, if_neg (by omega), if_pos (by omega)]
      · rw [if_neg hin, if_neg (by omega), if_neg (by omega)]

theorem length_shiftDown (l : List (Option T)) (pos n : Nat) :
    (shiftDown l pos n).length = l.length := by
  induction n generalizing l pos with
  | zero => rfl
  | succ m ih => simp [shiftDown, ih]

theorem readC_shiftDown (l : List (Option T)) (pos n j : Nat) :
    readC (shiftDown l pos n) j =
      if pos ≤ j ∧ j < pos + n then readC l (j + 1) else readC l j := by
  induction n generalizing l pos with
  | zero =>
    simp only [shiftDown]
    rw [if_neg (by omega)]
  | succ m ih =>
    simp only [shiftDown]
    rw [ih]
    simp only [readC_set]
    by_cases hj : j = pos
    · subst hj
      by_cases hlen : j < l.length
      · rw [if_neg (by omega), if_pos ⟨rfl, hlen⟩, if_pos (by omega)]
      · rw [if_neg (by omega), if_neg (by omega), if_pos (by omega)]
        rw [readC_of_length_le l j (by omega), readC_of_length_le l (j + 1) (by omega)]
    · by_cases hin : pos + 1 ≤ j ∧ j < pos + 1 + m
      · rw [if_pos hin, if_neg (by omega), if_pos (by omega)]
      · rw [if_neg hin, if_neg (by omega), if_neg (by omega)]

theorem length_destroyRange (l : List (Option T)) (i n : Nat) :
    (destroyRange l i n).length = l.length := by
  induction n generalizing l i with
  | zero => rfl
  | succ m ih => simp [destroyRange, ih]

theorem readC_destroyRange (l : List (Option T)) (i n j : Nat) :
    readC (destroyRange l i n) j =
      if i ≤ j ∧ j < i + n then none else readC l j := by
  induction n generalizing l i with
  | zero =>
    simp only [destroyRange]
    rw [if_neg (by omega)]
  | succ m ih =>
    simp only [destroyRange]
    rw [ih]
    simp only [readC_set]
    by_cases hj : j = i
    · subst hj
      by_cases hlen : j < l.length
      · rw [if_neg (by omega), if_pos ⟨rfl, hlen⟩, if_pos (by omega)]
      · rw [if_neg (by omega), if_neg (by omega), if_pos (by omega),
          readC_of_length_le l j (by omega)]
    · by_cases hin : i + 1 ≤ j ∧ j < i + 1 + m
      · rw [if_pos hin, if_pos (by omega)]
      · rw [if_neg hin, if_neg (by omega), if_neg (by omega)]

theorem length_fillRange (d : T) (l : List (Option T)) (i n : Nat) :
    (fillRange d l i n).length = l.length := by
  induction n generalizing l i with
  | zero => rfl
  | succ m ih => simp [fillRange, ih]

theorem readC_fillRange (d : T) (l : List (Option T)) (i n j : Nat) :
    readC (fillRange d l i n) j =
      if i ≤ j ∧ j < i + n ∧ j < l.length then some d else readC l j := by
  induction n generalizing l i with
  | zero =>
    simp only [fillRange]
    rw [if_neg (by omega)]
  | succ m ih =>
    simp only [fillRange]
    rw [ih]
    simp only [List.length_set, readC_set]
    by_cases hj : j = i
    · subst hj
      by_cases hlen : j < l.length
      · rw [if_neg (by omega), if_pos ⟨rfl, hlen⟩, if_pos (by omega)]
      · rw [if_neg (by omega), if_neg (by omega), if_neg (by omega)]
    · by_cases hin : i + 1 ≤ j ∧ j < i + 1 + m ∧ j < l.length
      · rw [if_pos hin, if_pos (by omega)]
      · rw [if_neg hin, if_neg (by omega), if_neg (by omega)]

theorem dupSeq_ok (src : List (Option T)) (si : Nat) (dst : List (Option T))
    (di cnt n : Nat) (hlive : ∀ m, m < n → (readC src (si + m)).isSome) :
    dupSeq (fun _ x => some x) src si dst di cnt n = some (copyCells src si dst di n) := by
  induction n generalizing si dst di cnt with
  | zero => rfl
  | succ k ih =>
    have h0 := hlive 0 (by omega)
    simp only [Nat.add_zero] at h0
    obtain ⟨x, hx⟩ := Option.isSome_iff_exists.mp h0
    simp only [dupSeq, hx, copyCells]
    exact ih (si + 1) (dst.set di (some x)) (di + 1) (cnt + 1)
      (fun m hm => by
        have h := hlive (m + 1) (by omega)
        have e : si + 1 + m = si + (m + 1) := by omega
        rw [e]; exact h)

theorem dupSeq_failAt (k : Nat) (src : List (Option T)) (si : Nat)
    (dst : List (Option T)) (di cnt n : Nat) (hk : cnt ≤ k ∧ k < cnt + n)
    (hlive : ∀ m, m < n → (readC src (si + m)).isSome) :
    dupSeq (fun i x => if i = k then none else some x) src si dst di cnt n = none := by
  induction n generalizing si dst di cnt with
  | zero => omega
  | succ j ih =>
    have h0 := hlive 0 (by omega)
    simp only [Nat.add_zero] at h0
    obtain ⟨x, hx⟩ := Option.isSome_iff_exists.mp h0
    by_cases hc : cnt = k
    · simp [dupSeq, hx, hc]
    · simp only [dupSeq, hx, if_neg hc]
      exact ih (si + 1) (dst.set di (some x)) (di + 1) (cnt + 1) ⟨by omega, by omega⟩
        (fun m hm => by
        have h := hlive (m + 1) (by omega)
        have e : si + 1 + m = si + (m + 1) := by omega
        rw [e]; exact h)

/-! ## The `Vector<T>` operations -/

/-- `Vector::Emplace(pos, args...)` (vector.h lines 122-158).  `pos` is
`num_pos = distance(cbegin(), pos)` and `x` the value `T(args...)`.  When
`size_ == Capacity()` the growth path allocates `size_ > 0 ? size_ * 2 : 1`
slots, constructs `x` at slot `pos` of the new block, transfers the prefix
`[0, pos)` and the suffix `[pos, size)` (shifted up by one) into it, and
swaps blocks.  Otherwise `EmplaceWMove`/`EmplaceWCopy` runs in place; both
act identically on values.  The two `constexpr` branches (move vs copy) are
value-identical, so only one is embedded. -/
def Vec.Emplace (v : Vec T) (pos : Nat) (x : T) : Vec T :=
  if v.size = v.data.length then
    let ns := if 0 < v.size then v.size * 2 else 1
    let nd0 := (List.replicate ns (none : Option T)).set pos (some x)
    let nd1 := copyCells v.data 0 nd0 0 pos
    let nd2 := copyCells v.data pos nd1 (pos + 1) (v.size - pos)
    { data := nd2, size := v.size + 1 }
  else
    if 0 < v.size ∧ pos ≠ v.size then
      -- EmplaceWMove: tmp = x; construct old last into slot size_;
      -- move_backward [pos, size_-1) to end at size_; assign tmp into pos.
      let d1 := v.data.set v.size (readC v.data (v.size - 1))
      let d2 := shiftUpFrom d1 pos (v.size - 1 - pos)
      { data := d2.set pos (some x), size := v.size + 1 }
    else
      { data := v.data.set pos (some x), size := v.size + 1 }

/-- `Vector::Erase(pos)` (vector.h lines 160-166): forward element-wise
move-assignment of `[pos+1, size)` one slot down, destruction of the
vacated last slot, `--size_`. -/
def Vec.Erase (v : Vec T) (pos : Nat) : Vec T :=
  { data := (shiftDown v.data pos (v.size - pos - 1)).set (v.size - 1) none,
    size := v.size - 1 }

/-- `Vector::Reserve(new_capacity)` (vector.h lines 232-245): no-op when
`new_capacity <= Capacity()`, otherwise allocate a fresh block, transfer the
`size_` live elements and swap. -/
def Vec.Reserve (v : Vec T) (n : Nat) : Vec T :=
  if n ≤ v.data.length then v
  else { data := copyCells v.data 0 (List.replicate n (none : Option T)) 0 v.size,
         size := v.size }

/-- `Vector::Reserve` when the element type duplicates (copies) rather than
transfers, with a duplication that may fail: returns the vector the caller
observes after the call together with `true` on normal return and `false`
when the exception propagated.  The `Swap` happens only after the whole
population loop, so on failure the caller still sees `v` itself. -/
def Vec.ReserveDup (dup : Nat → T → Option T) (v : Vec T) (n : Nat) : Vec T × Bool :=
  if n ≤ v.data.length then (v, true)
  else
    match dupSeq dup v.data 0 (List.replicate n (none : Option T)) 0 0 v.size with
    | some nd => ({ data := nd, size := v.size }, true)
    | none => (v, false)

/-- `Vector::Resize(new_size)` (vector.h lines 196-211); `d` is the value
produced by value-construction `T()`. -/
def Vec.Resize (v : Vec T) (m : Nat) (d : T) : Vec T :=
  if v.size = m then v
  else if m < v.size then
    { data := destroyRange v.data m (v.size - m), size := m }
  else
    let v' := Vec.Reserve v m
    { data := fillRange d v'.data v'.size (m - v'.size), size := m }

/-- `Vector::PushBack` = `EmplaceBack` = `Emplace(cend(), ...)`
(vector.h lines 213-225). -/
def Vec.PushBack (v : Vec T) (x : T) : Vec T := Vec.Emplace v v.size x

/-- A sequence of `PushBack` calls. -/
def pushMany (v : Vec T) (xs : List T) : Vec T := xs.foldl Vec.PushBack v

/-- `Vector::PopBack()` (vector.h lines 227-230). -/
def Vec.PopBack (v : Vec T) : Vec T :=
  { data := v.data.set (v.size - 1) none, size := v.size - 1 }

/-- `Vector(const Vector&)` (vector.h lines 189-194): allocates a block of
capacity `other.size_` and copies the live elements into it. -/
def Vec.copyConstruct (r : Vec T) : Vec T :=
  { data := copyCells r.data 0 (List.replicate r.size (none : Option T)) 0 r.size,
    size := r.size }

/-- `Vector(Vector&&)` (vector.h lines 185-187): the new vector takes the
block and size; `RawMemory`'s move constructor nulls the source block and
`other.size_ = 0`.  Result: (constructed vector, source afterwards). -/
def Vec.moveConstruct (a : Vec T) : Vec T × Vec T :=
  ({ data := a.data, size := a.size }, { data := [], size := 0 })

/-- `Vector::operator=(Vector&&)` (vector.h lines 303-308) for distinct
objects: `data_ = move(rhs.data_)` (RawMemory move assignment nulls rhs's
block), `size_ = move(rhs.size_)`, `rhs.size_ = 0`.
Result: (target afterwards, rhs afterwards). -/
def Vec.moveAssign (_t r : Vec T) : Vec T × Vec T :=
  ({ data := r.data, size := r.size }, { data := [], size := 0 })

/-- `v = std::move(v)`: the three statements of `operator=(Vector&&)` with
`this == &rhs`.  `data_ = move(rhs.data_)` hits the `this != &rhs` guard in
`RawMemory::operator=` and is a no-op; `size_ = move(rhs.size_)` assigns
`size_` to itself; `rhs.size_ = 0` then zeroes `this->size_`. -/
def Vec.moveAssignSelf (v : Vec T) : Vec T :=
  let v1 : Vec T := { data := v.data, size := v.size }
  let v2 : Vec T := { data := v1.data, size := v1.size }
  { data := v2.data, size := 0 }

/-- `Vector::operator=(const Vector&)` (vector.h lines 268-301) for distinct
objects.  If `rhs.size_ > Capacity()`: `Vector rhs_copy(rhs); Swap(rhs_copy)`.
Otherwise reuse the block: assign the common prefix element-wise, then either
destroy the excess `[rhs.size, size)` or copy-construct the extra
`[size, rhs.size)`. -/
def Vec.copyAssign (t r : Vec T) : Vec T :=
  if t.data.length < r.size then
    Vec.copyConstruct r
  else if r.size ≤ t.size then
    { data := destroyRange (copyCells r.data 0 t.data 0 r.size) r.size (t.size - r.size),
      size := r.size }
  else
    { data := copyCells r.data 0 t.data 0 r.size, size := r.size }

/-- The `rhs.size_ > Capacity()` branch of copy assignment with a
duplication that may fail while `Vector rhs_copy(rhs)` is built: returns
what the caller observes (the assigned-to vector, and whether the assignment
returned normally). -/
def Vec.copyAssignDup (dup : Nat → T → Option T) (t r : Vec T) : Vec T × Bool :=
  if t.data.length < r.size then
    match dupSeq dup r.data 0 (List.replicate r.size (none : Option T)) 0 0 r.size with
    | some nd => ({ data := nd, size := r.size }, true)
    | none => (t, false)
  else (Vec.copyAssign t r, true)

/-- `Vector::Swap(other)` (vector.h lines 310-313): full state exchange. -/
def Vec.SwapOp (a b : Vec T) : Vec T × Vec T :=
  ({ data := b.data, size := b.size }, { data := a.data, size := a.size })

/-! ## Abstraction and the class invariant -/

/-- `v` represents the abstract value list `l`: the logical size is
`l.length`, it fits in the block, and slot `i` holds exactly `l`'s `i`-th
value for every live index. -/
def models (v : Vec T) (l : List T) : Prop :=
  v.size = l.length ∧ l.length ≤ v.data.length ∧
    ∀ i, i < l.length → readC v.data i = elemAt l i

/-- The class invariant: `size_ ≤ capacity`, and a slot is live exactly when
its index is below `size_` (slots `[size, capacity)` are uninitialized). -/
def WF (v : Vec T) : Prop :=
  v.size ≤ v.data.length ∧
    ∀ i, i < v.data.length → ((readC v.data i).isSome ↔ i < v.size)

instance (v : Vec T) (l : List T) [DecidableEq T] : Decidable (models v l) := by
  unfold models; infer_instance

instance (v : Vec T) : Decidable (WF v) := by
  unfold WF; infer_instance

/-! ## Abstract-list operations and their pointwise laws -/

/-- The abstract effect of inserting at position `pos`. -/
def insertAt (l : List T) (pos : Nat) (x : T) : List T :=
  l.take pos ++ x :: l.drop pos

/-- The abstract effect of erasing position `pos`. -/
def removeAt (l : List T) (pos : Nat) : List T :=
  l.take pos ++ l.drop (pos + 1)

theorem length_insertAt (l : List T) (pos : Nat) (x : T) (h : pos ≤ l.length) :
    (insertAt l pos x).length = l.length + 1 := by
  simp only [insertAt, List.length_append, List.length_take, List.length_cons,
    List.length_drop]
  omega

theorem insertAt_length_self (l : List T) (x : T) :
    insertAt l l.length x = l ++ [x] := by
  simp [insertAt, List.take_length, List.drop_length]

theorem elemAt_insertAt (l : List T) (pos : Nat) (x : T) (i : Nat) (h : pos ≤ l.length) :
    elemAt (insertAt l pos x) i =
      if i < pos then elemAt l i
      else if i = pos then some x
      else elemAt l (i - 1) := by
  induction pos generalizing l i with
  | zero =>
    simp only [insertAt, List.take, List.drop, List.nil_append]
    cases i with
    | zero => rfl
    | succ n =>
      rw [if_neg (by omega), if_neg (by omega)]
      rfl
  | succ p ih =>
    cases l with
    | nil => simp at h
    | cons a as =>
      simp only [insertAt, List.take, List.drop, List.cons_append] at *
      cases i with
      | zero => rw [if_pos (by omega)]; rfl
      | succ n =>
        have hn : elemAt (List.take p as ++ x :: List.drop p as) n =
            if n < p then elemAt as n else if n = p then some x else elemAt as (n - 1) :=
          ih as n (by simpa using h)
        show elemAt (List.take p as ++ x :: List.drop p as) n = _
        rw [hn]
        by_cases h1 : n < p
        · rw [if_pos h1, if_pos (by omega)]; rfl
        · by_cases h2 : n = p
          · rw [if_neg h1, if_pos h2, if_neg (by omega), if_pos (by omega)]
          · rw [if_neg h1, if_neg h2, if_neg (by omega), if_neg (by omega)]
            have hn1 : 0 < n := by omega
            show elemAt as (n - 1) = elemAt (a :: as) (n + 1 - 1)
            have e1 : n + 1 - 1 = (n - 1) + 1 := by omega
            rw [e1]
            rfl

theorem length_removeAt (l : List T) (pos : Nat) (h : pos < l.length) :
    (removeAt l pos).length = l.length - 1 := by
  simp only [removeAt, List.length_append, List.length_take, List.length_drop]
  omega

theorem elemAt_removeAt (l : List T) (pos : Nat) (i : Nat) (h : pos < l.length) :
    elemAt (removeAt l pos) i =
      if i < pos then elemAt l i else elemAt l (i + 1) := by
  induction pos generalizing l i with
  | zero =>
    cases l with
    | nil => simp at h
    | cons a as =>
      simp only [removeAt, List.take, List.drop, List.nil_append]
      rw [if_neg (by omega)]
      rfl
  | succ p ih =>
    cases l with
    | nil => simp at h
    | cons a as =>
      simp only [removeAt, List.take, List.drop, List.cons_append] at *
      cases i with
      | zero => rw [if_pos (by omega)]; rfl
      | succ n =>
        have hn : elemAt (List.take p as ++ List.drop (p + 1) as) n =
            if n < p then elemAt as n else elemAt as (n + 1) :=
          ih as n (by simpa using h)
        show elemAt (List.take p as ++ List.drop (p + 1) as) n = _
        rw [hn]
        by_cases h1 : n < p
        · rw [if_pos h1, if_pos (by omega)]; rfl
        · rw [if_neg h1, if_neg (by omega)]; rfl

theorem elemAt_take (l : List T) (m i : Nat) :
    elemAt (l.take m) i = if i < m then elemAt l i else none := by
  induction l generalizing m i with
  | nil =>
    simp only [List.take_nil, elemAt]
    split <;> cases i <;> rfl
  | cons a as ih =>
    cases m with
    | zero => simp [List.take]; cases i <;> rfl
    | succ p =>
      cases i with
      | zero => simp [List.take]; rfl
      | succ n =>
        simp only [List.take]
        show elemAt (List.take p as) n = _
        rw [ih p n]
        by_cases h1 : n < p
        · rw [if_pos h1, if_pos (by omega)]; rfl
        · rw [if_neg h1, if_neg (by omega)]

theorem elemAt_append (l1 l2 : List T) (i : Nat) :
    elemAt (l1 ++ l2) i =
      if i < l1.length then elemAt l1 i else elemAt l2 (i - l1.length) := by
  induction l1 generalizing i with
  | nil => simp [elemAt]
  | cons a as ih =>
    cases i with
    | zero => simp [List.cons_append]; rfl
    | succ n =>
      simp only [List.cons_append, List.length_cons]
      show elemAt (as ++ l2) n = _
      rw [ih n]
      by_cases h1 : n < as.length
      · rw [if_pos h1, if_pos (by omega)]; rfl
      · rw [if_neg h1, if_neg (by omega)]
        congr 1
        omega

theorem elemAt_replicate (n : Nat) (d : T) (i : Nat) :
    elemAt (List.replicate n d) i = if i < n then some d else none := by
  induction n generalizing i with
  | zero => simp [List.replicate]; cases i <;> rfl
  | succ m ih =>
    cases i with
    | zero => simp [List.replicate]; rfl
    | succ k =>
      simp only [List.replicate]
      show elemAt (List.replicate m d) k = _
      rw [ih k]
      by_cases h1 : k < m
      · rw [if_pos h1, if_pos (by omega)]
      · rw [if_neg h1, if_neg (by omega)]

/-! ## Functional correctness of the operations -/

theorem Reserve_noop (v : Vec T) (n : Nat) (h : n ≤ Vec.Capacity v) :
    Vec.Reserve v n = v := by
  simp only [Vec.Reserve, Vec.Capacity] at *
  rw [if_pos h]

theorem Reserve_grow (v : Vec T) (l : List T) (n : Nat)
    (hm : models v l) (h : Vec.Capacity v < n) :
    models (Vec.Reserve v n) l ∧ (Vec.Reserve v n).Capacity = n := by
  obtain ⟨hsz, hcap, hpt⟩ := hm
  simp only [Vec.Reserve, Vec.Capacity] at *
  rw [if_neg (by omega)]
  refine ⟨⟨hsz, ?_, ?_⟩, ?_⟩
  · simp only [length_copyCells, List.length_replicate]
    omega
  · intro i hi
    rw [readC_copyCells]
    simp only [List.length_replicate]
    rw [if_pos ⟨by omega, by omega, by omega⟩]
    have e : 0 + (i - 0) = i := by omega
    rw [e]
    exact hpt i hi
  · simp [length_copyCells, List.length_replicate]

theorem Reserve_models (v : Vec T) (l : List T) (n : Nat) (hm : models v l) :
    models (Vec.Reserve v n) l ∧ n ≤ (Vec.Reserve v n).Capacity ∧
      Vec.Capacity v ≤ (Vec.Reserve v n).Capacity := by
  by_cases h : n ≤ Vec.Capacity v
  · rw [Reserve_noop v n h]
    exact ⟨hm, h, le_refl _⟩
  · obtain ⟨h1, h2⟩ := Reserve_grow v l n hm (by omega)
    exact ⟨h1, by omega, by omega⟩

theorem Emplace_models (v : Vec T) (l : List T) (pos : Nat) (x : T)
    (hm : models v l) (hpos : pos ≤ l.length) :
    models (Vec.Emplace v pos x) (insertAt l pos x) := by
  obtain ⟨hsz, hcap, hpt⟩ := hm
  have hlen : (insertAt l pos x).length = l.length + 1 := length_insertAt l pos x hpos
  by_cases hg : v.size = v.data.length
  · -- growth path: size == capacity
    have hns : l.length + 1 ≤ (if 0 < v.size then v.size * 2 else 1) := by
      by_cases h0 : 0 < v.size
      · rw [if_pos h0]; omega
      · rw [if_neg h0]; omega
    simp only [Vec.Emplace, if_pos hg]
    refine ⟨by simp [hlen]; omega, ?_, ?_⟩
    · simp only [length_copyCells, List.length_set, List.length_replicate]
      omega
    · intro i hi
      rw [hlen] at hi
      rw [elemAt_insertAt l pos x i hpos, readC_copyCells]
      simp only [length_copyCells, List.length_set, List.length_replicate]
      rcases Nat.lt_trichotomy i pos with hc | hc | hc
      · rw [if_neg (by omega), readC_copyCells]
        simp only [List.length_set, List.length_replicate]
        rw [if_pos ⟨by omega, by omega, by omega⟩]
        have e : 0 + (i - 0) = i := by omega
        rw [e, if_pos hc]
        exact hpt i (by omega)
      · subst hc
        rw [if_neg (by omega), readC_copyCells]
        simp only [List.length_set, List.length_replicate]
        rw [if_neg (by omega), readC_set, List.length_replicate,
          if_pos ⟨rfl, by omega⟩]
        simp
      · rw [if_pos ⟨by omega, by omega, by omega⟩]
        have e : pos + (i - (pos + 1)) = i - 1 := by omega
        rw [e, if_neg (by omega), if_neg (by omega)]
        exact hpt (i - 1) (by omega)
  · -- in-place path: size < capacity
    have hslt : v.size < v.data.length := by omega
    by_cases hc2 : 0 < v.size ∧ pos ≠ v.size
    · -- EmplaceWMove, inserting strictly before the end
      have hplt : pos < v.size := by omega
      simp only [Vec.Emplace, if_neg hg, if_pos hc2]
      refine ⟨by simp [hlen]; omega, ?_, ?_⟩
      · simp only [List.length_set, length_shiftUpFrom]
        omega
      · intro i hi
        rw [hlen] at hi
        rw [elemAt_insertAt l pos x i hpos, readC_set]
        simp only [length_shiftUpFrom, List.length_set]
        rcases Nat.lt_trichotomy i pos with hc | hc | hc
        · rw [if_neg (by omega), readC_shiftUpFrom]
          simp only [List.length_set]
          rw [if_neg (by omega), readC_set, if_neg (by omega), if_pos hc]
          exact hpt i (by omega)
        · subst hc
          rw [if_pos ⟨rfl, by omega⟩]
          simp
        · rw [if_neg (by omega), readC_shiftUpFrom]
          simp only [List.length_set]
          by_cases hend : i ≤ v.size - 1
          · rw [if_pos ⟨by omega, by omega, by omega⟩, readC_set,
              if_neg (by omega), if_neg (by omega), if_neg (by omega)]
            exact hpt (i - 1) (by omega)
          · have hie : i = v.size := by omega
            subst hie
            rw [if_neg (by omega), readC_set, if_pos ⟨rfl, by omega⟩,
              if_neg (by omega), if_neg (by omega)]
            exact hpt (v.size - 1) (by omega)
    · -- constructing directly into the one-past-end slot (pos == size)
      have hpe : pos = v.size := by
        rcases Nat.eq_zero_or_pos v.size with h0 | h0
        · omega
        · by_contra hne
          exact hc2 ⟨h0, by omega⟩
      simp only [Vec.Emplace, if_neg hg, if_neg hc2]
      refine ⟨by simp [hlen]; omega, ?_, ?_⟩
      · simp only [List.length_set]
        omega
      · intro i hi
        rw [hlen] at hi
        rw [elemAt_insertAt l pos x i hpos, readC_set]
        rcases Nat.lt_trichotomy i pos with hc | hc | hc
        · rw [if_neg (by omega), if_pos hc]
          exact hpt i (by omega)
        · subst hc
          rw [if_pos ⟨rfl, by omega⟩]
          simp
        · omega

theorem Emplace_size (v : Vec T) (pos : Nat) (x : T) :
    (Vec.Emplace v pos x).size = v.size + 1 := by
  simp only [Vec.Emplace]
  split
  · rfl
  · split <;> rfl

theorem Erase_models (v : Vec T) (l : List T) (pos : Nat)
    (hm : models v l) (hpos : pos < l.length) :
    models (Vec.Erase v pos) (removeAt l pos) ∧
      (Vec.Erase v pos).Capacity = Vec.Capacity v := by
  obtain ⟨hsz, hcap, hpt⟩ := hm
  have hlen : (removeAt l pos).length = l.length - 1 := length_removeAt l pos hpos
  refine ⟨⟨by simp [Vec.Erase, hlen]; omega, ?_, ?_⟩, ?_⟩
  · simp only [Vec.Erase, List.length_set, length_shiftDown]
    omega
  · intro i hi
    rw [hlen] at hi
    simp only [Vec.Erase]
    rw [elemAt_removeAt l pos i hpos, readC_set]
    simp only [length_shiftDown]
    rw [if_neg (by omega), readC_shiftDown]
    rcases Nat.lt_or_ge i pos with hc | hc
    · rw [if_neg (by omega), if_pos hc]
      exact hpt i (by omega)
    · rw [if_pos ⟨by omega, by omega⟩, if_neg (by omega)]
      exact hpt (i + 1) (by omega)
  · simp [Vec.Erase, Vec.Capacity, List.length_set, length_shiftDown]

theorem Resize_same (v : Vec T) (l : List T) (m : Nat) (d : T)
    (hm : models v l) (h : m = l.length) : Vec.Resize v m d = v := by
  simp only [Vec.Resize]
  rw [if_pos (hm.1.trans h.symm)]

theorem Resize_shrink (v : Vec T) (l : List T) (m : Nat) (d : T)
    (hm : models v l) (h : m < l.length) :
    models (Vec.Resize v m d) (l.take m) ∧
      (Vec.Resize v m d).Capacity = Vec.Capacity v := by
  obtain ⟨hsz, hcap, hpt⟩ := hm
  have hlen : (l.take m).length = m := by
    simp [List.length_take]; omega
  simp only [Vec.Resize]
  rw [if_neg (by omega), if_pos (by omega)]
  refine ⟨⟨by rw [hlen], ?_, ?_⟩, ?_⟩
  · simp only [length_destroyRange]; omega
  · intro i hi
    rw [hlen] at hi
    rw [readC_destroyRange, if_neg (by omega), elemAt_take, if_pos hi]
    exact hpt i (by omega)
  · simp [Vec.Capacity, length_destroyRange]

theorem Reserve_size (v : Vec T) (n : Nat) : (Vec.Reserve v n).size = v.size := by
  simp only [Vec.Reserve]
  split <;> rfl

theorem Resize_grow_models (v : Vec T) (l : List T) (m : Nat) (d : T)
    (hm : models v l) (h : l.length < m) :
    models (Vec.Resize v m d) (l ++ List.replicate (m - l.length) d) := by
  obtain ⟨hres, hrn, hrc⟩ := Reserve_models v l m hm
  obtain ⟨hsz', hcap', hpt'⟩ := hres
  have hsz : v.size = l.length := hm.1
  have hrsz : (Vec.Reserve v m).size = v.size := by
    simp only [Vec.Reserve]
    split <;> rfl
  have hlen2 : (l ++ List.replicate (m - l.length) d).length = m := by
    simp [List.length_append, List.length_replicate]; omega
  simp only [Vec.Resize]
  rw [if_neg (by omega), if_neg (by omega)]
  refine ⟨by rw [hlen2], ?_, ?_⟩
  · simp only [length_fillRange]
    simp only [Vec.Capacity] at hrn
    omega
  · intro i hi
    rw [hlen2] at hi
    rw [readC_fillRange, elemAt_append, elemAt_replicate]
    simp only [Vec.Capacity] at hrn
    rcases Nat.lt_or_ge i l.length with hc | hc
    · rw [if_neg (by omega), if_pos (by omega)]
      exact hpt' i (by omega)
    · rw [if_pos ⟨by omega, by omega, by omega⟩, if_neg (by omega),
        if_pos (by omega)]

/-! ## The class invariant: dead slots above `size_` -/

/-- The slots `[size, capacity)` (and beyond the block) are uninitialized. -/
def deadAbove (v : Vec T) : Prop := ∀ i, v.size ≤ i → readC v.data i = none

/-- The live values of a well-formed vector, extracted from its block. -/
def liveList (v : Vec T) : List T := (v.data.take v.size).filterMap id

theorem WF_of_models (v : Vec T) (l : List T) (hm : models v l) (hd : deadAbove v) :
    WF v := by
  obtain ⟨hsz, hcap, hpt⟩ := hm
  refine ⟨by omega, ?_⟩
  intro i hi
  constructor
  · intro hs
    by_contra hge
    rw [hd i (by omega)] at hs
    simp at hs
  · intro hlt
    rw [hpt i (by omega)]
    exact elemAt_isSome l i (by omega)

theorem WF_deadAbove (v : Vec T) (h : WF v) : deadAbove v := by
  intro i hi
  by_cases hlen : i < v.data.length
  · have := (h.2 i hlen).mpr
    rcases he : readC v.data i with _ | a
    · rfl
    · have : i < v.size := (h.2 i hlen).mp (by rw [he]; rfl)
      omega
  · exact readC_of_length_le _ _ (by omega)

theorem filterMap_take_spec (cl : List (Option T)) (n : Nat) (hn : n ≤ cl.length)
    (hlive : ∀ i, i < n → (readC cl i).isSome) :
    ((cl.take n).filterMap id).length = n ∧
      ∀ i, i < n → elemAt ((cl.take n).filterMap id) i = readC cl i := by
  induction n generalizing cl with
  | zero => exact ⟨by simp, fun i hi => by omega⟩
  | succ m ih =>
    cases cl with
    | nil => simp at hn
    | cons c cs =>
      have h0 := hlive 0 (by omega)
      obtain ⟨a, ha⟩ := Option.isSome_iff_exists.mp h0
      have hc : c = some a := ha
      subst hc
      have hrec := ih cs (by simpa using hn)
        (fun i hi => hlive (i + 1) (by omega))
      have hstep : ((some a :: cs).take (m + 1)).filterMap id =
          a :: ((cs.take m).filterMap id) := by
        simp [List.take, List.filterMap]
      refine ⟨by rw [hstep]; simp [hrec.1], ?_⟩
      intro i hi
      rw [hstep]
      cases i with
      | zero => rfl
      | succ j => exact hrec.2 j (by omega)

theorem WF_models_liveList (v : Vec T) (h : WF v) : models v (liveList v) := by
  have hle := h.1
  have hlive : ∀ i, i < v.size → (readC v.data i).isSome := by
    intro i hi
    exact (h.2 i (by omega)).mpr hi
  obtain ⟨hl1, hl2⟩ := filterMap_take_spec v.data v.size hle hlive
  refine ⟨hl1.symm, ?_, ?_⟩
  · show (List.filterMap id (List.take v.size v.data)).length ≤ v.data.length
    rw [hl1]
    exact hle
  · intro i hi
    have hi0 : i < (List.filterMap id (List.take v.size v.data)).length := hi
    rw [hl1] at hi0
    exact (hl2 i hi0).symm

theorem models_live (v : Vec T) (l : List T) (hm : models v l) :
    ∀ m, m < v.size → (readC v.data m).isSome := by
  intro m hmlt
  rw [hm.1] at hmlt
  rw [hm.2.2 m hmlt]
  exact elemAt_isSome l m hmlt

/-! ## Dead-slot preservation of every operation -/

theorem readC_replicate_some (n : Nat) (d : T) (i : Nat) :
    readC (List.replicate n (some d)) i = if i < n then some d else none := by
  induction n generalizing i with
  | zero => simp [List.replicate, readC_nil]
  | succ m ih =>
    cases i with
    | zero => simp [List.replicate]; rfl
    | succ k =>
      simp only [List.replicate]
      show readC (List.replicate m (some d)) k = _
      rw [ih k]
      by_cases h1 : k < m
      · rw [if_pos h1, if_pos (by omega)]
      · rw [if_neg h1, if_neg (by omega)]

theorem deadAbove_Emplace (v : Vec T) (pos : Nat) (x : T)
    (hpos : pos ≤ v.size) (hd : deadAbove v) : deadAbove (Vec.Emplace v pos x) := by
  intro i hi
  rw [Emplace_size] at hi
  by_cases hg : v.size = v.data.length
  · simp only [Vec.Emplace, if_pos hg]
    rw [readC_copyCells, if_neg (by omega), readC_copyCells, if_neg (by omega),
      readC_set, if_neg (by omega), readC_replicate]
  · by_cases hc2 : 0 < v.size ∧ pos ≠ v.size
    · simp only [Vec.Emplace, if_neg hg, if_pos hc2]
      rw [readC_set, if_neg (by omega), readC_shiftUpFrom, if_neg (by omega),
        readC_set, if_neg (by omega)]
      exact hd i (by omega)
    · simp only [Vec.Emplace, if_neg hg, if_neg hc2]
      rw [readC_set, if_neg (by omega)]
      exact hd i (by omega)

theorem deadAbove_Erase (v : Vec T) (pos : Nat) (hd : deadAbove v) :
    deadAbove (Vec.Erase v pos) := by
  intro i hi
  simp only [Vec.Erase] at hi ⊢
  by_cases hlen : i < v.data.length
  · rw [readC_set]
    by_cases h1 : v.size - 1 = i
    · rw [if_pos ⟨h1, by simpa [length_shiftDown] using hlen⟩]
    · rw [if_neg (fun hc => h1 hc.1), readC_shiftDown, if_neg (by omega)]
      exact hd i (by omega)
  · exact readC_of_length_le _ i (by simp [List.length_set, length_shiftDown]; omega)

theorem deadAbove_Reserve (v : Vec T) (n : Nat) (hd : deadAbove v) :
    deadAbove (Vec.Reserve v n) := by
  intro i hi
  rw [Reserve_size] at hi
  simp only [Vec.Reserve]
  by_cases h : n ≤ v.data.length
  · rw [if_pos h]
    exact hd i hi
  · rw [if_neg h, readC_copyCells, if_neg (by omega), readC_replicate]

theorem deadAbove_Resize (v : Vec T) (m : Nat) (d : T) (hd : deadAbove v) :
    deadAbove (Vec.Resize v m d) := by
  intro i hi
  simp only [Vec.Resize] at hi ⊢
  by_cases h1 : v.size = m
  · rw [if_pos h1] at hi ⊢
    exact hd i hi
  · rw [if_neg h1] at hi ⊢
    by_cases h2 : m < v.size
    · rw [if_pos h2] at hi ⊢
      rw [readC_destroyRange]
      by_cases hc : i < v.size
      · rw [if_pos ⟨by simpa using hi, by omega⟩]
      · rw [if_neg (by omega)]
        exact hd i (by omega)
    · rw [if_neg h2] at hi ⊢
      rw [readC_fillRange, Reserve_size, if_neg (by simp at hi; omega)]
      exact deadAbove_Reserve v m hd i (by rw [Reserve_size]; simp at hi; omega)

theorem deadAbove_PushBack (v : Vec T) (x : T) (hd : deadAbove v) :
    deadAbove (Vec.PushBack v x) :=
  deadAbove_Emplace v v.size x (le_refl _) hd

theorem deadAbove_PopBack (v : Vec T) (hd : deadAbove v) :
    deadAbove (Vec.PopBack v) := by
  intro i hi
  simp only [Vec.PopBack] at hi ⊢
  by_cases hlen : i < v.data.length
  · rw [readC_set]
    by_cases h1 : v.size - 1 = i
    · rw [if_pos ⟨h1, hlen⟩]
    · rw [if_neg (fun hc => h1 hc.1)]
      exact hd i (by omega)
  · exact readC_of_length_le _ i (by simp [List.length_set]; omega)

theorem deadAbove_copyConstruct (r : Vec T) : deadAbove (Vec.copyConstruct r) := by
  intro i hi
  simp only [Vec.copyConstruct] at hi ⊢
  rw [readC_copyCells, if_neg (by omega), readC_replicate]

theorem deadAbove_copyAssign (t r : Vec T) (hdt : deadAbove t) :
    deadAbove (Vec.copyAssign t r) := by
  intro i hi
  simp only [Vec.copyAssign] at hi ⊢
  by_cases h1 : t.data.length < r.size
  · rw [if_pos h1] at hi ⊢
    exact deadAbove_copyConstruct r i hi
  · rw [if_neg h1] at hi ⊢
    by_cases h2 : r.size ≤ t.size
    · rw [if_pos h2] at hi ⊢
      rw [readC_destroyRange]
      by_cases hc : i < t.size
      · rw [if_pos ⟨by simpa using hi, by omega⟩]
      · rw [if_neg (by omega), readC_copyCells, if_neg (by simp at hi; omega)]
        exact hdt i (by omega)
    · rw [if_neg h2] at hi ⊢
      rw [readC_copyCells, if_neg (by simp at hi; omega)]
      exact hdt i (by simp at hi; omega)

theorem deadAbove_moveConstruct (a : Vec T) (hd : deadAbove a) :
    deadAbove (Vec.moveConstruct a).1 ∧ deadAbove (Vec.moveConstruct a).2 := by
  constructor
  · intro i hi
    exact hd i hi
  · intro i hi
    exact readC_nil i

theorem deadAbove_moveAssign (t r : Vec T) (hdr : deadAbove r) :
    deadAbove (Vec.moveAssign t r).1 ∧ deadAbove (Vec.moveAssign t r).2 := by
  constructor
  · intro i hi
    exact hdr i hi
  · intro i hi
    exact readC_nil i

theorem deadAbove_SwapOp (a b : Vec T) (hda : deadAbove a) (hdb : deadAbove b) :
    deadAbove (Vec.SwapOp a b).1 ∧ deadAbove (Vec.SwapOp a b).2 :=
  ⟨fun i hi => hdb i hi, fun i hi => hda i hi⟩

theorem deadAbove_mkVec (n : Nat) (d : T) : deadAbove (mkVec n d) := by
  intro i hi
  simp only [mkVec] at hi ⊢
  rw [readC_replicate_some, if_neg (by omega)]

theorem deadAbove_emptyVec : deadAbove (emptyVec : Vec T) := by
  intro i _
  exact readC_nil i

theorem mkVec_models (n : Nat) (d : T) : models (mkVec n d) (List.replicate n d) := by
  refine ⟨by simp [mkVec], by simp [mkVec], ?_⟩
  intro i hi
  simp only [mkVec, List.length_replicate] at hi ⊢
  rw [readC_replicate_some, elemAt_replicate]

theorem emptyVec_models : models (emptyVec : Vec T) [] := by
  exact ⟨rfl, by simp [emptyVec], fun i hi => by simp at hi⟩

/-! ## Copy construction / assignment and the fallible duplication paths -/

theorem copyConstruct_models (r : Vec T) (lr : List T) (hm : models r lr) :
    models (Vec.copyConstruct r) lr ∧ (Vec.copyConstruct r).Capacity = r.size := by
  obtain ⟨hsz, hcap, hpt⟩ := hm
  refine ⟨⟨hsz, ?_, ?_⟩, ?_⟩
  · simp only [Vec.copyConstruct, length_copyCells, List.length_replicate]
    omega
  · intro i hi
    simp only [Vec.copyConstruct]
    rw [readC_copyCells]
    simp only [List.length_replicate]
    rw [if_pos ⟨by omega, by omega, by omega⟩]
    have e : 0 + (i - 0) = i := by omega
    rw [e]
    exact hpt i hi
  · simp [Vec.copyConstruct, Vec.Capacity, length_copyCells, List.length_replicate]

theorem copyAssign_models (t r : Vec T) (lt lr : List T)
    (hmt : models t lt) (hmr : models r lr) :
    models (Vec.copyAssign t r) lr := by
  obtain ⟨hszr, hcapr, hptr⟩ := hmr
  obtain ⟨hszt, hcapt, hptt⟩ := hmt
  simp only [Vec.copyAssign]
  by_cases h1 : t.data.length < r.size
  · rw [if_pos h1]
    exact (copyConstruct_models r lr ⟨hszr, hcapr, hptr⟩).1
  · rw [if_neg h1]
    by_cases h2 : r.size ≤ t.size
    · rw [if_pos h2]
      refine ⟨hszr, ?_, ?_⟩
      · simp only [length_destroyRange, length_copyCells]
        omega
      · intro i hi
        rw [readC_destroyRange, if_neg (by omega), readC_copyCells,
          if_pos ⟨by omega, by omega, by omega⟩]
        have e : 0 + (i - 0) = i := by omega
        rw [e]
        exact hptr i hi
    · rw [if_neg h2]
      refine ⟨hszr, ?_, ?_⟩
      · simp only [length_copyCells]
        omega
      · intro i hi
        rw [readC_copyCells, if_pos ⟨by omega, by omega, by omega⟩]
        have e : 0 + (i - 0) = i := by omega
        rw [e]
        exact hptr i hi

theorem ReserveDup_noop (dup : Nat → T → Option T) (v : Vec T) (n : Nat)
    (h : n ≤ Vec.Capacity v) : Vec.ReserveDup dup v n = (v, true) := by
  simp only [Vec.ReserveDup, Vec.Capacity] at *
  rw [if_pos h]

theorem ReserveDup_ok (v : Vec T) (l : List T) (n : Nat)
    (hm : models v l) (h : Vec.Capacity v < n) :
    Vec.ReserveDup (fun _ x => some x) v n = (Vec.Reserve v n, true) := by
  have hlive := models_live v l hm
  simp only [Vec.ReserveDup, Vec.Reserve, Vec.Capacity] at *
  rw [if_neg (by omega), if_neg (by omega),
    dupSeq_ok v.data 0 _ 0 0 v.size (fun m hmlt => by simpa using hlive m hmlt)]

theorem ReserveDup_fail (v : Vec T) (l : List T) (n k : Nat)
    (hm : models v l) (h : Vec.Capacity v < n) (hk : k < v.size) :
    Vec.ReserveDup (fun i x => if i = k then none else some x) v n = (v, false) := by
  have hlive := models_live v l hm
  simp only [Vec.ReserveDup, Vec.Capacity] at *
  rw [if_neg (by omega),
    dupSeq_failAt k v.data 0 _ 0 0 v.size ⟨by omega, by omega⟩
      (fun m hmlt => by simpa using hlive m hmlt)]

theorem copyAssignDup_ok (t r : Vec T) (lr : List T)
    (hmr : models r lr) (h : Vec.Capacity t < r.size) :
    Vec.copyAssignDup (fun _ x => some x) t r = (Vec.copyConstruct r, true) := by
  have hlive := models_live r lr hmr
  simp only [Vec.copyAssignDup, Vec.copyConstruct, Vec.Capacity] at *
  rw [if_pos (by omega),
    dupSeq_ok r.data 0 _ 0 0 r.size (fun m hmlt => by simpa using hlive m hmlt)]

theorem copyAssignDup_fail (t r : Vec T) (lr : List T) (k : Nat)
    (hmr : models r lr) (h : Vec.Capacity t < r.size) (hk : k < r.size) :
    Vec.copyAssignDup (fun i x => if i = k then none else some x) t r = (t, false) := by
  have hlive := models_live r lr hmr
  simp only [Vec.copyAssignDup, Vec.Capacity] at *
  rw [if_pos (by omega),
    dupSeq_failAt k r.data 0 _ 0 0 r.size ⟨by omega, by omega⟩
      (fun m hmlt => by simpa using hlive m hmlt)]

/-! ## PushBack sequences and the growth policy -/

theorem PushBack_models (v : Vec T) (l : List T) (x : T) (hm : models v l) :
    models (Vec.PushBack v x) (l ++ [x]) := by
  have h2 : insertAt l v.size x = l ++ [x] := by
    rw [hm.1, insertAt_length_self]
  rw [← h2]
  exact Emplace_models v l v.size x hm (le_of_eq hm.1)

theorem pushMany_models (xs : List T) (v : Vec T) (l : List T) (hm : models v l) :
    models (pushMany v xs) (l ++ xs) := by
  induction xs generalizing v l with
  | nil => simpa [pushMany] using hm
  | cons x xs ih =>
    have h2 := ih (Vec.PushBack v x) (l ++ [x]) (PushBack_models v l x hm)
    simpa [pushMany, List.foldl, List.append_assoc] using h2

theorem Capacity_Emplace (v : Vec T) (pos : Nat) (x : T) :
    (Vec.Emplace v pos x).Capacity =
      if v.size = v.data.length then (if 0 < v.size then v.size * 2 else 1)
      else v.data.length := by
  simp only [Vec.Emplace, Vec.Capacity]
  by_cases hg : v.size = v.data.length
  · rw [if_pos hg, if_pos hg]
    simp [length_copyCells, List.length_set, List.length_replicate]
  · rw [if_neg hg, if_neg hg]
    by_cases hc2 : 0 < v.size ∧ pos ≠ v.size
    · rw [if_pos hc2]
      simp [List.length_set, length_shiftUpFrom]
    · rw [if_neg hc2]
      simp [List.length_set]

theorem Capacity_PushBack (v : Vec T) (x : T) :
    (Vec.PushBack v x).Capacity =
      if v.size = Vec.Capacity v then max 1 (2 * Vec.Capacity v)
      else Vec.Capacity v := by
  rw [show Vec.PushBack v x = Vec.Emplace v v.size x from rfl, Capacity_Emplace]
  simp only [Vec.Capacity]
  by_cases hg : v.size = v.data.length
  · rw [if_pos hg, if_pos hg]
    by_cases h0 : 0 < v.size
    · rw [if_pos h0, Nat.max_eq_right (by omega)]
      omega
    · rw [if_neg h0, Nat.max_eq_left (by omega)]
  · rw [if_neg hg, if_neg hg]

theorem Capacity_PushBack_mono (v : Vec T) (x : T) :
    Vec.Capacity v ≤ (Vec.PushBack v x).Capacity := by
  rw [Capacity_PushBack]
  by_cases hg : v.size = Vec.Capacity v
  · rw [if_pos hg]
    exact le_trans (by omega) (Nat.le_max_right 1 (2 * Vec.Capacity v))
  · rw [if_neg hg]

/-! ## Move construction / move assignment -/

theorem moveConstruct_spec (a : Vec T) (l : List T) (hm : models a l) :
    models (Vec.moveConstruct a).1 l ∧
      (Vec.moveConstruct a).1.Capacity = Vec.Capacity a ∧
      (Vec.moveConstruct a).2.Size = 0 ∧ (Vec.moveConstruct a).2.Capacity = 0 :=
  ⟨hm, rfl, rfl, rfl⟩

theorem moveAssign_spec (t a : Vec T) (l : List T) (hm : models a l) :
    models (Vec.moveAssign t a).1 l ∧
      (Vec.moveAssign t a).1.Capacity = Vec.Capacity a ∧
      (Vec.moveAssign t a).2.Size = 0 ∧ (Vec.moveAssign t a).2.Capacity = 0 :=
  ⟨hm, rfl, rfl, rfl⟩

/-! ## Invariant preservation, operation by operation -/

theorem WF_emptyVec : WF (emptyVec : Vec T) :=
  WF_of_models _ [] emptyVec_models deadAbove_emptyVec

theorem WF_mkVec (n : Nat) (d : T) : WF (mkVec n d) :=
  WF_of_models _ _ (mkVec_models n d) (deadAbove_mkVec n d)

theorem WF_Emplace (v : Vec T) (pos : Nat) (x : T) (h : WF v) (hpos : pos ≤ v.size) :
    WF (Vec.Emplace v pos x) := by
  have hm := WF_models_liveList v h
  exact WF_of_models _ _
    (Emplace_models v (liveList v) pos x hm (by rw [← hm.1]; exact hpos))
    (deadAbove_Emplace v pos x hpos (WF_deadAbove v h))

theorem WF_PushBack (v : Vec T) (x : T) (h : WF v) : WF (Vec.PushBack v x) :=
  WF_Emplace v v.size x h (le_refl _)

theorem WF_Erase (v : Vec T) (pos : Nat) (h : WF v) (hpos : pos < v.size) :
    WF (Vec.Erase v pos) := by
  have hm := WF_models_liveList v h
  exact WF_of_models _ _
    (Erase_models v (liveList v) pos hm (by rw [← hm.1]; exact hpos)).1
    (deadAbove_Erase v pos (WF_deadAbove v h))

theorem WF_PopBack (v : Vec T) (h : WF v) (h0 : 0 < v.size) :
    WF (Vec.PopBack v) := by
  obtain ⟨h1, h2⟩ := h
  refine ⟨?_, ?_⟩
  · simp only [Vec.PopBack, List.length_set]
    omega
  · intro i hi
    simp only [Vec.PopBack, List.length_set] at hi ⊢
    rw [readC_set]
    by_cases hc : v.size - 1 = i
    · rw [if_pos ⟨hc, hi⟩]
      simp only [Option.isSome_none, Bool.false_eq_true, false_iff]
      omega
    · rw [if_neg (fun hand => hc hand.1), h2 i hi]
      omega

theorem WF_Reserve (v : Vec T) (n : Nat) (h : WF v) : WF (Vec.Reserve v n) :=
  WF_of_models _ _ (Reserve_models v (liveList v) n (WF_models_liveList v h)).1
    (deadAbove_Reserve v n (WF_deadAbove v h))

theorem WF_Resize (v : Vec T) (m : Nat) (d : T) (h : WF v) :
    WF (Vec.Resize v m d) := by
  have hm := WF_models_liveList v h
  have hd := WF_deadAbove v h
  rcases Nat.lt_trichotomy m (liveList v).length with hc | hc | hc
  · exact WF_of_models _ _ (Resize_shrink v (liveList v) m d hm hc).1
      (deadAbove_Resize v m d hd)
  · rw [Resize_same v (liveList v) m d hm hc]
    exact h
  · exact WF_of_models _ _ (Resize_grow_models v (liveList v) m d hm hc)
      (deadAbove_Resize v m d hd)

theorem WF_copyConstruct (r : Vec T) (h : WF r) : WF (Vec.copyConstruct r) :=
  WF_of_models _ _ (copyConstruct_models r (liveList r) (WF_models_liveList r h)).1
    (deadAbove_copyConstruct r)

theorem WF_copyAssign (t r : Vec T) (ht : WF t) (hr : WF r) :
    WF (Vec.copyAssign t r) :=
  WF_of_models _ _
    (copyAssign_models t r (liveList t) (liveList r)
      (WF_models_liveList t ht) (WF_models_liveList r hr))
    (deadAbove_copyAssign t r (WF_deadAbove t ht))

theorem WF_moveConstruct (a : Vec T) (h : WF a) :
    WF (Vec.moveConstruct a).1 ∧ WF (Vec.moveConstruct a).2 :=
  ⟨WF_of_models _ _ (moveConstruct_spec a (liveList a) (WF_models_liveList a h)).1
      (deadAbove_moveConstruct a (WF_deadAbove a h)).1,
    WF_of_models _ [] emptyVec_models (deadAbove_moveConstruct a (WF_deadAbove a h)).2⟩

theorem WF_moveAssign (t r : Vec T) (hr : WF r) :
    WF (Vec.moveAssign t r).1 ∧ WF (Vec.moveAssign t r).2 :=
  ⟨WF_of_models _ _ (moveAssign_spec t r (liveList r) (WF_models_liveList r hr)).1
      (deadAbove_moveAssign t r (WF_deadAbove r hr)).1,
    WF_of_models _ [] emptyVec_models (deadAbove_moveAssign t r (WF_deadAbove r hr)).2⟩

theorem WF_SwapOp (a b : Vec T) (ha : WF a) (hb : WF b) :
    WF (Vec.SwapOp a b).1 ∧ WF (Vec.SwapOp a b).2 :=
  ⟨WF_of_models _ _ (WF_models_liveList b hb)
      (deadAbove_SwapOp a b (WF_deadAbove a ha) (WF_deadAbove b hb)).1,
    WF_of_models _ _ (WF_models_liveList a ha)
      (deadAbove_SwapOp a b (WF_deadAbove a ha) (WF_deadAbove b hb)).2⟩

/-! ## The claims -/

/-- Claim C1: for every vector of size `n` and every position `i` with
`0 ≤ i ≤ n`, `Emplace` at index `i` yields size `n + 1`, with the newly
constructed element at index `i` and all other elements in their original
relative order.  The statement covers both the growth path
(`size == capacity`) and the in-place path (`size < capacity`), since
`Vec.Emplace` branches on exactly that condition. -/
theorem C1_emplace_insert (v : Vec T) (l : List T) (pos : Nat) (x : T)
    (hm : models v l) (hpos : pos ≤ l.length) :
    (Vec.Emplace v pos x).Size = l.length + 1 ∧
      models (Vec.Emplace v pos x) (insertAt l pos x) := by
  refine ⟨?_, Emplace_models v l pos x hm hpos⟩
  show (Vec.Emplace v pos x).size = l.length + 1
  rw [Emplace_size, hm.1]

/-- Witness for C1, on the growth path: a full vector `[1, 2]` with
capacity 2, emplacing 9 at index 1. -/
theorem C1_emplace_insert_witness :
    (Vec.Emplace (⟨[some 1, some 2], 2⟩ : Vec Nat) 1 9).Size = [1, 2].length + 1 ∧
      models (Vec.Emplace (⟨[some 1, some 2], 2⟩ : Vec Nat) 1 9) (insertAt [1, 2] 1 9) :=
  C1_emplace_insert ⟨[some 1, some 2], 2⟩ [1, 2] 1 9 (by decide) (by decide)

/-- Claim C2: for `n > Capacity()`, `Reserve(n)` makes the capacity at
least `n` (in fact exactly `n`) and preserves all elements and their order;
and when element duplication is required and the `k`-th duplication fails
(`k < size`), `Reserve` returns with the vector unchanged — same capacity,
size and elements — and the partially built block discarded (the strong
exception guarantee). -/
theorem C2_reserve_strong (v : Vec T) (l : List T) (n k : Nat)
    (hm : models v l) (h : Vec.Capacity v < n) (hk : k < v.Size) :
    (n ≤ (Vec.Reserve v n).Capacity ∧ models (Vec.Reserve v n) l) ∧
      Vec.ReserveDup (fun i x => if i = k then none else some x) v n = (v, false) := by
  obtain ⟨h1, h2⟩ := Reserve_grow v l n hm h
  exact ⟨⟨le_of_eq h2.symm, h1⟩, ReserveDup_fail v l n k hm h hk⟩

/-- Witness for C2: vector `[3, 4]` of capacity 2, reserving 5, with a
duplication that throws on call 1. -/
theorem C2_reserve_strong_witness :
    (5 ≤ (Vec.Reserve (⟨[some 3, some 4], 2⟩ : Vec Nat) 5).Capacity ∧
      models (Vec.Reserve (⟨[some 3, some 4], 2⟩ : Vec Nat) 5) [3, 4]) ∧
      Vec.ReserveDup (fun i x => if i = 1 then none else some x)
        (⟨[some 3, some 4], 2⟩ : Vec Nat) 5 = (⟨[some 3, some 4], 2⟩, false) :=
  C2_reserve_strong ⟨[some 3, some 4], 2⟩ [3, 4] 5 1 (by decide) (by decide) (by decide)

/-- Claim C3, counterexample: self-move-assignment (`v = std::move(v)`) is a
public operation that breaks the second half of the invariant.  On a
well-formed vector holding one live element, `operator=(Vector&&)` with
`rhs` aliasing `*this` leaves `size_ == 0` (the final `rhs.size_ = 0` writes
through the alias) while slot 0 still holds a constructed, never-destroyed
element — so the set of live slots is no longer exactly `[0, size)`. -/
theorem C3_counterexample :
    WF (⟨[some 0], 1⟩ : Vec Nat) ∧
      ¬ WF (Vec.moveAssignSelf (⟨[some 0], 1⟩ : Vec Nat)) := by
  decide

/-- Claim C3 (amended): every public operation, invoked on distinct objects
and with its documented preconditions met, preserves the invariant that
`size ≤ capacity` and that exactly the slots `[0, size)` hold live
elements; self-move-assignment is the exception — it preserves
`size ≤ capacity` but leaves previously constructed elements in slots
`[0, old size)` while setting `size` to 0. -/
theorem C3_invariant (T : Type) :
    WF (emptyVec : Vec T) ∧
    (∀ (n : Nat) (d : T), WF (mkVec n d)) ∧
    (∀ (v : Vec T) (pos : Nat) (x : T), WF v → pos ≤ v.Size → WF (Vec.Emplace v pos x)) ∧
    (∀ (v : Vec T) (x : T), WF v → WF (Vec.PushBack v x)) ∧
    (∀ (v : Vec T) (pos : Nat), WF v → pos < v.Size → WF (Vec.Erase v pos)) ∧
    (∀ (v : Vec T), WF v → 0 < v.Size → WF (Vec.PopBack v)) ∧
    (∀ (v : Vec T) (n : Nat), WF v → WF (Vec.Reserve v n)) ∧
    (∀ (v : Vec T) (m : Nat) (d : T), WF v → WF (Vec.Resize v m d)) ∧
    (∀ (r : Vec T), WF r → WF (Vec.copyConstruct r)) ∧
    (∀ (t r : Vec T), WF t → WF r → WF (Vec.copyAssign t r)) ∧
    (∀ (a : Vec T), WF a → WF (Vec.moveConstruct a).1 ∧ WF (Vec.moveConstruct a).2) ∧
    (∀ (t r : Vec T), WF r → WF (Vec.moveAssign t r).1 ∧ WF (Vec.moveAssign t r).2) ∧
    (∀ (a b : Vec T), WF a → WF b → WF (Vec.SwapOp a b).1 ∧ WF (Vec.SwapOp a b).2) ∧
    (∀ (v : Vec T), (Vec.moveAssignSelf v).Size ≤ (Vec.moveAssignSelf v).Capacity) :=
  ⟨WF_emptyVec, WF_mkVec, WF_Emplace, WF_PushBack, WF_Erase, WF_PopBack, WF_Reserve,
    WF_Resize, WF_copyConstruct, WF_copyAssign, WF_moveConstruct, WF_moveAssign,
    WF_SwapOp, fun _ => Nat.zero_le _⟩

/-- Witness for C3: `Emplace` on a concrete well-formed vector preserves
the invariant. -/
theorem C3_invariant_witness :
    WF (Vec.Emplace (⟨[some 5, none], 1⟩ : Vec Nat) 0 7) :=
  (C3_invariant Nat).2.2.1 ⟨[some 5, none], 1⟩ 0 7 (by decide) (by decide)

/-- Claim C4: for every sequence of `PushBack` calls starting from an empty
vector, `Size` equals the number of calls and the element order equals the
push order; capacity is monotonically non-decreasing, a push with
`size == capacity` grows the capacity to `max(1, 2 * capacity)`, and a push
with `size != capacity` leaves the capacity unchanged. -/
theorem C4_pushback_policy (T : Type) :
    (∀ xs : List T,
      models (pushMany emptyVec xs) xs ∧ (pushMany emptyVec xs).Size = xs.length) ∧
    (∀ (v : Vec T) (x : T), Vec.Capacity v ≤ (Vec.PushBack v x).Capacity) ∧
    (∀ (v : Vec T) (x : T), v.Size = Vec.Capacity v →
      (Vec.PushBack v x).Capacity = max 1 (2 * Vec.Capacity v)) ∧
    (∀ (v : Vec T) (x : T), v.Size ≠ Vec.Capacity v →
      (Vec.PushBack v x).Capacity = Vec.Capacity v) := by
  refine ⟨?_, Capacity_PushBack_mono, ?_, ?_⟩
  · intro xs
    have h := pushMany_models xs emptyVec [] emptyVec_models
    simp only [List.nil_append] at h
    exact ⟨h, h.1⟩
  · intro v x h
    have h' : v.size = Vec.Capacity v := h
    rw [Capacity_PushBack, if_pos h']
  · intro v x h
    have h' : ¬ v.size = Vec.Capacity v := h
    rw [Capacity_PushBack, if_neg h']

/-- Witness for C4: pushing `[10, 20, 30]` from empty, and a doubling step
on a full vector of capacity 1. -/
theorem C4_pushback_policy_witness :
    (models (pushMany emptyVec [10, 20, 30]) [10, 20, 30] ∧
      (pushMany (emptyVec : Vec Nat) [10, 20, 30]).Size = [10, 20, 30].length) ∧
      (Vec.PushBack (⟨[some 1], 1⟩ : Vec Nat) 2).Capacity =
        max 1 (2 * Vec.Capacity (⟨[some 1], 1⟩ : Vec Nat)) :=
  ⟨(C4_pushback_policy Nat).1 [10, 20, 30],
    (C4_pushback_policy Nat).2.2.1 ⟨[some 1], 1⟩ 2 (by decide)⟩

/-- Claim C5: for every vector of size `n ≥ 1` and position `i < n`,
`Erase` at index `i` yields size `n - 1` with the element at `i` removed and
all the others in their original relative order, at unchanged capacity.  The
embedding's `Vec.Erase` performs the shift of `[i+1, n)` toward the front by
element-wise assignment (`shiftDown`), then destroys the vacated last slot
and decrements the size, exactly as the source does. -/
theorem C5_erase (v : Vec T) (l : List T) (pos : Nat)
    (hm : models v l) (hpos : pos < l.length) :
    (Vec.Erase v pos).Size = l.length - 1 ∧
      models (Vec.Erase v pos) (removeAt l pos) ∧
      (Vec.Erase v pos).Capacity = Vec.Capacity v := by
  obtain ⟨h1, h2⟩ := Erase_models v l pos hm hpos
  refine ⟨?_, h1, h2⟩
  show v.size - 1 = l.length - 1
  rw [hm.1]

/-- Witness for C5: erasing index 1 of `[0, 1, 2]`. -/
theorem C5_erase_witness :
    (Vec.Erase (⟨[some 0, some 1, some 2, none], 3⟩ : Vec Nat) 1).Size =
        [0, 1, 2].length - 1 ∧
      models (Vec.Erase (⟨[some 0, some 1, some 2, none], 3⟩ : Vec Nat) 1)
        (removeAt [0, 1, 2] 1) ∧
      (Vec.Erase (⟨[some 0, some 1, some 2, none], 3⟩ : Vec Nat) 1).Capacity =
        Vec.Capacity (⟨[some 0, some 1, some 2, none], 3⟩ : Vec Nat) :=
  C5_erase ⟨[some 0, some 1, some 2, none], 3⟩ [0, 1, 2] 1 (by decide) (by decide)

/-- Claim C6: `Resize(m)` with `m < size` leaves elements `[0, m)` unchanged
and makes the size `m`; with `m > size` it leaves `[0, size)` unchanged,
makes `[size, m)` default-valued (`d` is the value produced by `T()`), and
makes the size `m`; with `m == size` it changes nothing at all. -/
theorem C6_resize (v : Vec T) (l : List T) (m : Nat) (d : T) (hm : models v l) :
    (m < l.length → models (Vec.Resize v m d) (l.take m) ∧
      (Vec.Resize v m d).Size = m) ∧
    (l.length < m →
      models (Vec.Resize v m d) (l ++ List.replicate (m - l.length) d) ∧
      (Vec.Resize v m d).Size = m) ∧
    (m = l.length → Vec.Resize v m d = v) := by
  refine ⟨?_, ?_, fun h => Resize_same v l m d hm h⟩
  · intro h
    have hmod := (Resize_shrink v l m d hm h).1
    refine ⟨hmod, ?_⟩
    show (Vec.Resize v m d).size = m
    rw [hmod.1, List.length_take]
    exact Nat.min_eq_left (by omega)
  · intro h
    have hmod := Resize_grow_models v l m d hm h
    refine ⟨hmod, ?_⟩
    show (Vec.Resize v m d).size = m
    rw [hmod.1, List.length_append, List.length_replicate]
    omega

/-- Witness for C6: growing `[1]` to size 3 with default value 0. -/
theorem C6_resize_witness :
    models (Vec.Resize (⟨[some 1], 1⟩ : Vec Nat) 3 0)
        ([1] ++ List.replicate (3 - [1].length) 0) ∧
      (Vec.Resize (⟨[some 1], 1⟩ : Vec Nat) 3 0).Size = 3 :=
  (C6_resize ⟨[some 1], 1⟩ [1] 3 0 (by decide)).2.1 (by decide)

/-- Claim C7: transferring ownership from vector `a` to another vector —
move construction or move assignment between distinct objects — leaves the
source with `Size() == 0` and gives the destination exactly `a`'s original
elements and `a`'s original capacity.  (Self-move-assignment, where source
and destination alias, is claim C10.) -/
theorem C7_move_transfer (a t : Vec T) (l : List T) (hm : models a l) :
    (models (Vec.moveConstruct a).1 l ∧
      (Vec.moveConstruct a).1.Capacity = Vec.Capacity a ∧
      (Vec.moveConstruct a).2.Size = 0) ∧
    (models (Vec.moveAssign t a).1 l ∧
      (Vec.moveAssign t a).1.Capacity = Vec.Capacity a ∧
      (Vec.moveAssign t a).2.Size = 0) :=
  ⟨⟨hm, rfl, rfl⟩, ⟨hm, rfl, rfl⟩⟩

/-- Witness for C7: moving out of `[7, 8]` (capacity 3). -/
theorem C7_move_transfer_witness :
    (models (Vec.moveConstruct (⟨[some 7, some 8, none], 2⟩ : Vec Nat)).1 [7, 8] ∧
      (Vec.moveConstruct (⟨[some 7, some 8, none], 2⟩ : Vec Nat)).1.Capacity =
        Vec.Capacity (⟨[some 7, some 8, none], 2⟩ : Vec Nat) ∧
      (Vec.moveConstruct (⟨[some 7, some 8, none], 2⟩ : Vec Nat)).2.Size = 0) ∧
    (models (Vec.moveAssign (⟨[some 9], 1⟩ : Vec Nat)
        (⟨[some 7, some 8, none], 2⟩ : Vec Nat)).1 [7, 8] ∧
      (Vec.moveAssign (⟨[some 9], 1⟩ : Vec Nat)
        (⟨[some 7, some 8, none], 2⟩ : Vec Nat)).1.Capacity =
        Vec.Capacity (⟨[some 7, some 8, none], 2⟩ : Vec Nat) ∧
      (Vec.moveAssign (⟨[some 9], 1⟩ : Vec Nat)
        (⟨[some 7, some 8, none], 2⟩ : Vec Nat)).2.Size = 0) :=
  C7_move_transfer ⟨[some 7, some 8, none], 2⟩ ⟨[some 9], 1⟩ [7, 8] (by decide)

/-- Claim C8: for distinct vectors with `rhs.Size() > this.Capacity()`,
copy assignment builds a full temporary duplicate of `rhs`
(`Vector rhs_copy(rhs)`) and swaps it in, so the result equals a fresh copy
of `rhs` and is element-wise equal to `rhs`; and the strong guarantee
holds: with a duplication that fails on the `k`-th copy (`k < rhs.Size()`),
the assigned-to object is returned unmodified. -/
theorem C8_copy_assign_strong (t r : Vec T) (lr : List T) (k : Nat)
    (hmr : models r lr) (h : Vec.Capacity t < r.Size) (hk : k < r.Size) :
    (Vec.copyAssign t r = Vec.copyConstruct r ∧
      models (Vec.copyAssign t r) lr) ∧
    Vec.copyAssignDup (fun _ x => some x) t r = (Vec.copyConstruct r, true) ∧
    Vec.copyAssignDup (fun i x => if i = k then none else some x) t r = (t, false) := by
  have h' : t.data.length < r.size := h
  have heq : Vec.copyAssign t r = Vec.copyConstruct r := by
    simp only [Vec.copyAssign]
    rw [if_pos h']
  refine ⟨⟨heq, ?_⟩, copyAssignDup_ok t r lr hmr h, copyAssignDup_fail t r lr k hmr h hk⟩
  rw [heq]
  exact (copyConstruct_models r lr hmr).1

/-- Witness for C8: assigning `[4, 5, 6]` into a vector of capacity 1, with
a duplication failing on call 2 for the strong-guarantee half. -/
theorem C8_copy_assign_strong_witness :
    (Vec.copyAssign (⟨[some 9], 1⟩ : Vec Nat) ⟨[some 4, some 5, some 6], 3⟩ =
        Vec.copyConstruct ⟨[some 4, some 5, some 6], 3⟩ ∧
      models (Vec.copyAssign (⟨[some 9], 1⟩ : Vec Nat)
        ⟨[some 4, some 5, some 6], 3⟩) [4, 5, 6]) ∧
    Vec.copyAssignDup (fun _ x => some x) (⟨[some 9], 1⟩ : Vec Nat)
        ⟨[some 4, some 5, some 6], 3⟩ =
      (Vec.copyConstruct ⟨[some 4, some 5, some 6], 3⟩, true) ∧
    Vec.copyAssignDup (fun i x => if i = 2 then none else some x)
        (⟨[some 9], 1⟩ : Vec Nat) ⟨[some 4, some 5, some 6], 3⟩ =
      (⟨[some 9], 1⟩, false) :=
  C8_copy_assign_strong ⟨[some 9], 1⟩ ⟨[some 4, some 5, some 6], 3⟩ [4, 5, 6] 2
    (by decide) (by decide) (by decide)

/-- Claim C9: `Reserve(n)` with `n ≤ Capacity()` is a no-op — the vector is
left exactly as it was: same capacity, same size, same elements. -/
theorem C9_reserve_noop (v : Vec T) (n : Nat) (h : n ≤ Vec.Capacity v) :
    Vec.Reserve v n = v :=
  Reserve_noop v n h

/-- Witness for C9: reserving 2 on a vector of capacity 3. -/
theorem C9_reserve_noop_witness :
    Vec.Reserve (⟨[some 1, some 2, none], 2⟩ : Vec Nat) 2 =
      (⟨[some 1, some 2, none], 2⟩ : Vec Nat) :=
  C9_reserve_noop ⟨[some 1, some 2, none], 2⟩ 2 (by decide)

/-- Claim C10: self-move-assignment (`v = std::move(v)`) leaves `v` with
`Size() == 0` while its capacity stays unchanged: the `this != &rhs` guard
in `RawMemory::operator=` keeps the block, and the trailing `rhs.size_ = 0`
writes through the alias, so the previously live elements are no longer
observable through the container. -/
theorem C10_self_move (v : Vec T) :
    (Vec.moveAssignSelf v).Size = 0 ∧
      (Vec.moveAssignSelf v).Capacity = Vec.Capacity v ∧
      liveList (Vec.moveAssignSelf v) = [] :=
  ⟨rfl, rfl, rfl⟩

end AdvVec
